import Mathlib

/-!
Verification of the event-sourced orchestration engine of the
voice-computer-use demo: the demo-event log, the context serializer
(`group_tool_messages`, `to_beta_message_param`, image pruning), and the
cursor-driven worker loop (`run_worker`, `process_computer_use_event`).

The Python sources embedded here are `computer_use_demo/state.py` and
`computer_use_demo/loop.py`. Dictionaries keyed by strings become
functions `String → Option _`; the in-place image pruning becomes an
explicit state-passing recursion over the message list; the Anthropic
network call and the tool execution are abstracted as oracles
`Nat → Except String _` indexed by the snapshot position of the step
that performs the call.
-/

namespace VoiceComputerUse

/-- Modelled from the spec: the `computer_use_demo.tools` module is not part
of the sources at hand; per the spec's data model a `ToolResult` carries
`output?`, `error?`, a binary payload (`base64_image`) and an optional
system-context marker. The spec's orphan-suppression policy keys on
presence of an id in the results map, so every `ToolResult` value is
treated as truthy. -/
structure ToolResult where
  output : Option String
  error : Option String
  base64_image : Option String
  system : Option String
deriving DecidableEq

/-- The empty tool result (all fields absent). -/
def ToolResult.empty : ToolResult := ⟨none, none, none, none⟩

/-- Type `DemoEvent` from `state.py`: the tagged union of log entries. The
`input` dictionary of a tool use is opaque to the engine and is modelled
as a string payload. -/
inductive DemoEvent where
  | user_input (text : String)
  | assistant_output (text : String)
  | tool_use (id : String) (input : String) (name : String)
  | tool_result (result : ToolResult) (tool_use_id : String)
  | error (err : String)
deriving DecidableEq

/-- A sub-block inside a tool-result block's content list
(`BetaTextBlockParam | BetaImageBlockParam`). Image sources in this demo
are always inline base64 strings. -/
inductive ToolResultSubBlock where
  | text (text : String)
  | image (data : String)
deriving DecidableEq

/-- A content block of a serialized message. A tool-result block's content
is either a plain string (the error case of `_make_api_tool_result`) or a
list of text/image sub-blocks. -/
inductive ContentBlock where
  | text (text : String)
  | tool_use (id : String) (input : String) (name : String)
  | tool_result (content : String ⊕ List ToolResultSubBlock)
      (tool_use_id : String) (is_error : Bool)
deriving DecidableEq

/-- Message role. -/
inductive Role where
  | user
  | assistant
deriving DecidableEq

/-- Type `BetaMessageParam`: a role-tagged turn. All messages built by
`to_beta_message_param` carry a list-shaped content (never a bare
string), so list-shaped content is the whole domain arising in the
program. -/
structure BetaMessageParam where
  role : Role
  content : List ContentBlock
deriving DecidableEq

/-- Function `_maybe_prepend_system_tool_result` of `state.py`. -/
def _maybe_prepend_system_tool_result (result : ToolResult)
    (result_text : String) : String :=
  match result.system with
  | some s => "<system>" ++ s ++ "</system>\n" ++ result_text
  | none => result_text

/-- Function `_make_api_tool_result` of `state.py`: convert an agent `ToolResult` to an
API tool-result block. -/
def _make_api_tool_result (result : ToolResult) (tool_use_id : String) :
    ContentBlock :=
  match result.error with
  | some err =>
      ContentBlock.tool_result
        (Sum.inl (_maybe_prepend_system_tool_result result err))
        tool_use_id true
  | none =>
      ContentBlock.tool_result
        (Sum.inr
          ((match result.output with
            | some o =>
                [ToolResultSubBlock.text
                  (_maybe_prepend_system_tool_result result o)]
            | none => []) ++
           (match result.base64_image with
            | some d => [ToolResultSubBlock.image d]
            | none => [])))
        tool_use_id false

/-- The tool results of `events` carrying `tool_use_id = id`, in log
order. -/
def results_for (events : List DemoEvent) (id : String) : List ToolResult :=
  events.filterMap fun e =>
    match e with
    | DemoEvent.tool_result r tid => if tid = id then some r else none
    | _ => none

/-- The dictionary built by the first pass of
`state.py:group_tool_messages`: later entries overwrite earlier ones, so
the lookup yields the last matching tool result. -/
def tool_results_by_tool_use_id (events : List DemoEvent) (id : String) :
    Option ToolResult :=
  (results_for events id).getLast?

/-- The per-event contribution of the second pass of
`group_tool_messages`, with the results dictionary `m` fixed: tool
results are dropped from their original position, a tool use whose id is
in the dictionary is re-paired with its mapped result, a tool use whose
id is absent is dropped, and every other event passes through. -/
def group_unit (m : String → Option ToolResult) (e : DemoEvent) :
    List DemoEvent :=
  match e with
  | DemoEvent.tool_result _ _ => []
  | DemoEvent.tool_use id input name =>
      match m id with
      | some r =>
          [DemoEvent.tool_use id input name, DemoEvent.tool_result r id]
      | none => []
  | e => [e]

/-- The second pass of `group_tool_messages` against a fixed results
dictionary `m`. -/
def group_with (m : String → Option ToolResult) (events : List DemoEvent) :
    List DemoEvent :=
  events.flatMap (group_unit m)

/-- Function `group_tool_messages` of `state.py`. -/
def group_tool_messages (events : List DemoEvent) : List DemoEvent :=
  group_with (tool_results_by_tool_use_id events) events

/-- Function `to_beta_message_param` of `state.py`: one optional single-block turn per
event; `error` events serialize to `none`. -/
def to_beta_message_param (event : DemoEvent) : Option BetaMessageParam :=
  match event with
  | DemoEvent.user_input t =>
      some ⟨Role.user, [ContentBlock.text t]⟩
  | DemoEvent.assistant_output t =>
      some ⟨Role.assistant, [ContentBlock.text t]⟩
  | DemoEvent.tool_use id input name =>
      some ⟨Role.assistant, [ContentBlock.tool_use id input name]⟩
  | DemoEvent.tool_result r tid =>
      some ⟨Role.user, [_make_api_tool_result r tid]⟩
  | DemoEvent.error _ => none

/-- The `messages` list built in `loop.py:phone_anthropic` (lines
101-106): group the demo events, map each to its optional message, and
keep the non-`None` ones (every built message is a non-empty dictionary,
so Python truthiness coincides with being non-`None`). -/
def phone_messages (demo_events : List DemoEvent) : List BetaMessageParam :=
  (group_tool_messages demo_events).filterMap to_beta_message_param

/-! ## Image pruning (`loop.py:_maybe_filter_to_n_most_recent_images`)

The Python function mutates the message list in place, walking the
tool-result blocks in document order and dropping image sub-blocks while
a signed removal counter is positive. Here the walk is an explicit
state-passing recursion threading the counter (an `Int`, because
`images_to_remove` can be negative, exactly as in Python) left to right
through sub-blocks, blocks, and messages. -/

/-- The image payloads of a sub-block list, in order. -/
def sub_images (bs : List ToolResultSubBlock) : List String :=
  bs.filterMap fun b =>
    match b with
    | ToolResultSubBlock.image d => some d
    | ToolResultSubBlock.text _ => none

/-- The image payloads inside one content block: only tool-result blocks
with list-shaped content hold countable images (string-shaped content is
skipped by the `isinstance(..., list)` guards). -/
def block_images (b : ContentBlock) : List String :=
  match b with
  | ContentBlock.tool_result (Sum.inr bs) _ _ => sub_images bs
  | _ => []

/-- The image payloads of a whole message list, in walk order. -/
def images_of (messages : List BetaMessageParam) : List String :=
  messages.flatMap fun m => m.content.flatMap block_images

/-- Counter `total_images` of `_maybe_filter_to_n_most_recent_images`: the number
of image sub-blocks inside tool-result blocks. -/
def total_images (messages : List BetaMessageParam) : Nat :=
  (images_of messages).length

/-- Whether a sub-block is an image sub-block. -/
def is_image_sub_block (b : ToolResultSubBlock) : Bool :=
  match b with
  | ToolResultSubBlock.image _ => true
  | ToolResultSubBlock.text _ => false

/-- A sub-block list with its image sub-blocks erased (the non-image
sub-blocks, in order). -/
def non_image_sub_blocks (bs : List ToolResultSubBlock) :
    List ToolResultSubBlock :=
  bs.filter fun b => !is_image_sub_block b

/-- A content block with all image sub-blocks erased. -/
def non_image_block (b : ContentBlock) : ContentBlock :=
  match b with
  | ContentBlock.tool_result (Sum.inr bs) tid ie =>
      ContentBlock.tool_result (Sum.inr (non_image_sub_blocks bs)) tid ie
  | b => b

/-- A message list with all image sub-blocks erased; used to state that
pruning preserves everything that is not an image. -/
def non_image_part (messages : List BetaMessageParam) :
    List BetaMessageParam :=
  messages.map fun m => ⟨m.role, m.content.map non_image_block⟩

/-- One tool-result content list under the removal walk: an image met
while the counter is positive is dropped and decrements the counter; all
other sub-blocks are kept. -/
def prune_sub_blocks : Int → List ToolResultSubBlock →
    Int × List ToolResultSubBlock
  | n, [] => (n, [])
  | n, ToolResultSubBlock.image d :: rest =>
      if 0 < n then prune_sub_blocks (n - 1) rest
      else
        ((prune_sub_blocks n rest).1,
         ToolResultSubBlock.image d :: (prune_sub_blocks n rest).2)
  | n, ToolResultSubBlock.text t :: rest =>
      ((prune_sub_blocks n rest).1,
       ToolResultSubBlock.text t :: (prune_sub_blocks n rest).2)

/-- The removal walk over one message's content blocks: only tool-result
blocks with list-shaped content are rewritten. -/
def prune_content : Int → List ContentBlock → Int × List ContentBlock
  | n, [] => (n, [])
  | n, ContentBlock.tool_result (Sum.inr bs) tid ie :: rest =>
      ((prune_content (prune_sub_blocks n bs).1 rest).1,
       ContentBlock.tool_result (Sum.inr (prune_sub_blocks n bs).2) tid ie ::
         (prune_content (prune_sub_blocks n bs).1 rest).2)
  | n, b :: rest =>
      ((prune_content n rest).1, b :: (prune_content n rest).2)

/-- The removal walk over the whole message list. -/
def prune_messages : Int → List BetaMessageParam →
    Int × List BetaMessageParam
  | n, [] => (n, [])
  | n, m :: rest =>
      ((prune_messages (prune_content n m.content).1 rest).1,
       ⟨m.role, (prune_content n m.content).2⟩ ::
         (prune_messages (prune_content n m.content).1 rest).2)

/-- Function `_maybe_filter_to_n_most_recent_images` of `loop.py`; `images_to_keep` is
`only_n_most_recent_images`; `min_removal_threshold` defaults to 10 at the
source's only call site. `Int.emod` agrees with Python `%` on a positive
modulus, so a negative `images_to_remove` stays non-positive after the
chunk rounding and nothing is removed. -/
def _maybe_filter_to_n_most_recent_images (messages : List BetaMessageParam)
    (images_to_keep : Option Nat) (min_removal_threshold : Int) :
    List BetaMessageParam :=
  match images_to_keep with
  | none => messages
  | some k =>
      (prune_messages
        (((total_images messages : Int) - (k : Int)) -
          ((total_images messages : Int) - (k : Int)) % min_removal_threshold)
        messages).2

/-! ## The worker loop (`loop.py:run_worker`)

The Anthropic call and the tool execution are abstracted as oracles
indexed by the snapshot position of the step performing them; `Except`
models Python exception behaviour (`.error` is a raised exception caught
by the per-step `try`/`except`). `demo_events` is the live list owned by
the main thread: the snapshot `demo_events[cursor:]` is a copy taken at
run start, but the final `len(demo_events)` reads the list again, after
the owning thread may have appended `appended_during_run` to it. -/

/-- A content block of an Anthropic response (`BetaMessage.content`);
`process_computer_use_event` distinguishes tool-use and text blocks. -/
inductive ResponseBlock where
  | text (text : String)
  | tool_use (id : String) (input : String) (name : String)
deriving DecidableEq

/-- Type `BetaMessage`: an Anthropic API response, reduced to its content. -/
structure BetaMessage where
  content : List ResponseBlock
deriving DecidableEq

/-- Type `WorkerEvent` from `state.py`: the tagged union of outcomes the
worker puts on the queue. -/
inductive WorkerEvent where
  | tool_result (tool_result : ToolResult) (tool_use_id : String)
  | anthropic_response (response : BetaMessage)
  | error (err : String)
  | finished (cursor : Nat)
deriving DecidableEq

/-- A stand-in for Python's `str(event)` used in the worker's error
message; the exact rendering is presentation-only. -/
def event_str (e : DemoEvent) : String :=
  match e with
  | DemoEvent.user_input t => "user_input " ++ t
  | DemoEvent.assistant_output t => "assistant_output " ++ t
  | DemoEvent.tool_use id input name =>
      "tool_use " ++ id ++ " " ++ input ++ " " ++ name
  | DemoEvent.tool_result _ tid => "tool_result " ++ tid
  | DemoEvent.error err => "error " ++ err

/-- The message of the worker's `error` outcome:
`str(e) + '\nfor event\n' + str(event)`. -/
def worker_error_message (e : String) (ev : DemoEvent) : String :=
  e ++ "\nfor event\n" ++ event_str ev

/-- The outcomes one snapshot event contributes to the queue, given the
results of the external calls its handler makes: a `user_input` or
`tool_result` event phones Anthropic, a `tool_use` event runs the tool,
and `assistant_output`/`error` events are skipped; a raised exception is
caught and becomes one `error` outcome. -/
def worker_step (anthropic : Except String BetaMessage)
    (tool : Except String ToolResult) (ev : DemoEvent) : List WorkerEvent :=
  match ev with
  | DemoEvent.user_input _ =>
      match anthropic with
      | Except.ok r => [WorkerEvent.anthropic_response r]
      | Except.error e => [WorkerEvent.error (worker_error_message e ev)]
  | DemoEvent.tool_use id _ _ =>
      match tool with
      | Except.ok tr => [WorkerEvent.tool_result tr id]
      | Except.error e => [WorkerEvent.error (worker_error_message e ev)]
  | DemoEvent.tool_result _ _ =>
      match anthropic with
      | Except.ok r => [WorkerEvent.anthropic_response r]
      | Except.error e => [WorkerEvent.error (worker_error_message e ev)]
  | DemoEvent.assistant_output _ => []
  | DemoEvent.error _ => []

/-- The external call a snapshot event's handler performs, if any
(`none` for the no-action events). Used to phrase "handling this event
raised an exception". -/
def step_call (anthropic : Except String BetaMessage)
    (tool : Except String ToolResult) (ev : DemoEvent) :
    Option (Except String Unit) :=
  match ev with
  | DemoEvent.user_input _ => some (anthropic.map fun _ => ())
  | DemoEvent.tool_result _ _ => some (anthropic.map fun _ => ())
  | DemoEvent.tool_use _ _ _ => some (tool.map fun _ => ())
  | DemoEvent.assistant_output _ => none
  | DemoEvent.error _ => none

/-- The worker's per-step loop over the snapshot, `i` being the snapshot
position of the next event (indexing the oracles). -/
def worker_outcomes (anthropic : Nat → Except String BetaMessage)
    (tool : Nat → Except String ToolResult) :
    Nat → List DemoEvent → List WorkerEvent
  | _, [] => []
  | i, ev :: rest =>
      worker_step (anthropic i) (tool i) ev ++
        worker_outcomes anthropic tool (i + 1) rest

/-- Function `run_worker` of `loop.py`: iterate over the snapshot
`pending_events = demo_events[cursor:]`, then put the `finished` outcome
whose cursor is `len(demo_events)` — the length of the LIVE list, i.e.
of `demo_events ++ appended_during_run`, where `appended_during_run` are
the events the owning thread appended to the shared list between run
start and the final length read. -/
def run_worker (demo_events : List DemoEvent) (cursor : Nat)
    (anthropic : Nat → Except String BetaMessage)
    (tool : Nat → Except String ToolResult)
    (appended_during_run : List DemoEvent) : List WorkerEvent :=
  worker_outcomes anthropic tool 0 (demo_events.drop cursor) ++
    [WorkerEvent.finished (demo_events ++ appended_during_run).length]

/-! ## The owning thread (`loop.py:process_computer_use_event`,
`state.py:State`)

The owning thread's session state, restricted to the fields the claims
are about: the append-only demo-event log, the outbound EVI command
queue, the worker cursor and the running flag (`State.setup_state`
creates them as `[]`, `[]`, `0`, `False`). -/

/-- An outbound EVI command; only `sendAssistantInput` is issued by
`process_computer_use_event` (via `State.trigger_evi_speech`). -/
inductive ChatCommand where
  | sendAssistantInput (message : String)
deriving DecidableEq

/-- The owner-side session state. -/
structure OwnerState where
  demo_events : List DemoEvent
  evi_commands : List ChatCommand
  worker_cursor : Nat
  worker_running : Bool
deriving DecidableEq

/-- The initial session state built by `State.setup_state`. -/
def initial_owner_state : OwnerState := ⟨[], [], 0, false⟩

/-- Method `State.add_user_input` of `state.py`. -/
def add_user_input (s : OwnerState) (text : String) : OwnerState :=
  { s with demo_events := s.demo_events ++ [DemoEvent.user_input text] }

/-- The demo event appended for one response content block: a tool-use
block becomes a `tool_use` event, a text block an `assistant_output`
event. -/
def response_block_event (b : ResponseBlock) : DemoEvent :=
  match b with
  | ResponseBlock.tool_use id input name => DemoEvent.tool_use id input name
  | ResponseBlock.text t => DemoEvent.assistant_output t

/-- The EVI command triggered by one response content block (text blocks
also trigger `trigger_evi_speech`). -/
def response_block_command (b : ResponseBlock) : Option ChatCommand :=
  match b with
  | ResponseBlock.text t => some (ChatCommand.sendAssistantInput t)
  | ResponseBlock.tool_use _ _ _ => none

/-- Function `process_computer_use_event` of `loop.py`: apply one worker outcome to the
session state. The source's per-block loop over `response.content`
appends one demo event per block (and one EVI command per text block), in
block order. -/
def process_computer_use_event (s : OwnerState) (result : WorkerEvent) :
    OwnerState :=
  match result with
  | WorkerEvent.anthropic_response resp =>
      { s with
        demo_events := s.demo_events ++ resp.content.map response_block_event,
        evi_commands :=
          s.evi_commands ++ resp.content.filterMap response_block_command }
  | WorkerEvent.tool_result tr tid =>
      { s with
        demo_events := s.demo_events ++ [DemoEvent.tool_result tr tid] }
  | WorkerEvent.finished c =>
      { s with worker_running := false, worker_cursor := c }
  | WorkerEvent.error e =>
      { s with demo_events := s.demo_events ++ [DemoEvent.error e] }

/-- The owner-side system state together with the ghost variable
`run_start_len`, the length the log had when the currently active worker
run (if any) was scheduled. -/
structure SysState where
  owner : OwnerState
  run_start_len : Nat
deriving DecidableEq

/-- Modelled from the spec: the drain/schedule driver that calls
`run_worker` and `process_computer_use_event` is not among the sources at
hand; per spec sections 2, 4.5 and 4.6 the owning thread may append user
input at any time, schedules a run only while no run is active (setting
the `worker_running` flag), and drains worker outcomes in queue order
while a run is active. The side condition on a drained `finished L`
outcome records what the queue discipline guarantees about the value the
code computes: `L` is `len(demo_events)` read by the worker after the run
was scheduled (so `run_start_len ≤ L`, the log being append-only with the
owner as its only writer) and before the owner processes the outcome (so
`L ≤` the current length). -/
inductive OwnerStep : SysState → SysState → Prop where
  | user_input (o : OwnerState) (g : Nat) (t : String) :
      OwnerStep ⟨o, g⟩ ⟨add_user_input o t, g⟩
  | start_run (o : OwnerState) (g : Nat)
      (h : o.worker_running = false) :
      OwnerStep ⟨o, g⟩ ⟨{ o with worker_running := true },
        o.demo_events.length⟩
  | drain (o : OwnerState) (g : Nat) (w : WorkerEvent)
      (hrun : o.worker_running = true)
      (hfin : ∀ L, w = WorkerEvent.finished L →
        g ≤ L ∧ L ≤ o.demo_events.length) :
      OwnerStep ⟨o, g⟩ ⟨process_computer_use_event o w, g⟩

/-- The states reachable from session start. -/
def SysReachable (s : SysState) : Prop :=
  Relation.ReflTransGen OwnerStep ⟨initial_owner_state, 0⟩ s

/-- Whether a demo event is an `error` entry. -/
def is_error_event : DemoEvent → Bool
  | DemoEvent.error _ => true
  | _ => false

/-- The number of `tool_use` events of `events` whose id is `id`. -/
def tool_use_count (events : List DemoEvent) (id : String) : Nat :=
  (events.filter fun e =>
    match e with
    | DemoEvent.tool_use i _ _ => i == id
    | _ => false).length

/-- The grammar of a grouped slice relative to a results dictionary `m`:
a concatenation of units, each either a non-tool event or a `tool_use`
immediately followed by the `tool_result` that `m` maps its id to. In
particular every tool use is immediately followed by its matched result
and every tool result immediately follows its tool use. -/
inductive IsGrouped (m : String → Option ToolResult) : List DemoEvent → Prop
  | nil : IsGrouped m []
  | user_input (t : String) (rest : List DemoEvent) :
      IsGrouped m rest → IsGrouped m (DemoEvent.user_input t :: rest)
  | assistant_output (t : String) (rest : List DemoEvent) :
      IsGrouped m rest → IsGrouped m (DemoEvent.assistant_output t :: rest)
  | error_event (e : String) (rest : List DemoEvent) :
      IsGrouped m rest → IsGrouped m (DemoEvent.error e :: rest)
  | pair (id input name : String) (r : ToolResult) (rest : List DemoEvent) :
      m id = some r → IsGrouped m rest →
      IsGrouped m (DemoEvent.tool_use id input name ::
        DemoEvent.tool_result r id :: rest)


/-! ## Concrete instances and derived definitions used by the theorems -/

/-- A slice with an unresolved tool use, for the C3 witness. -/
def c3_events : List DemoEvent :=
  [DemoEvent.tool_use "a" "x" "bash", DemoEvent.user_input "hi"]

/-- A slice with two results for the same tool use, for the C9
witness. -/
def c9_events : List DemoEvent :=
  [DemoEvent.tool_use "t" "i" "bash",
   DemoEvent.tool_result ⟨some "one", none, none, none⟩ "t",
   DemoEvent.tool_result ⟨some "two", none, none, none⟩ "t"]

/-- The number of images removed by one pruning pass, per the source:
`images_to_remove = total - images_to_keep` rounded down to a multiple of
the chunk size. -/
def chunked_removal (total k threshold : Int) : Int :=
  (total - k) - (total - k) % threshold

/-- A message list holding 23 images inside one tool result. -/
def c4_messages : List BetaMessageParam :=
  [⟨Role.user,
    [ContentBlock.tool_result
      (Sum.inr (List.replicate 23 (ToolResultSubBlock.image "img")))
      "t1" false]⟩]

/-- The three-step snapshot of the C6 witness. -/
def c6_events : List DemoEvent :=
  [DemoEvent.user_input "one", DemoEvent.user_input "two",
   DemoEvent.user_input "three"]

/-- The C6 witness backend oracle: the call of step 2 (position 1)
raises, the others succeed. -/
def c6_anthropic (i : Nat) : Except String BetaMessage :=
  if i = 1 then Except.error "boom" else Except.ok ⟨[]⟩

/-- The C6 witness tool oracle (never consulted on this snapshot). -/
def c6_tool (_ : Nat) : Except String ToolResult :=
  Except.ok ToolResult.empty

/-- The cursor-safety invariant carried through every owner step: the
cursor is within the log, and while a run is active the cursor is at
most the scheduling-time length, which is at most the current length. -/
def CursorInv (s : SysState) : Prop :=
  s.owner.worker_cursor ≤ s.owner.demo_events.length ∧
  (s.owner.worker_running = true →
    s.owner.worker_cursor ≤ s.run_start_len ∧
    s.run_start_len ≤ s.owner.demo_events.length)

/-- The one-user-input log whose worker run exhibits the finished-cursor
slip. -/
def c2_demo_events : List DemoEvent := [DemoEvent.user_input "hi"]

/-- Two consecutive tool uses, both resolved later in the slice. -/
def c1_events : List DemoEvent :=
  [DemoEvent.tool_use "a" "i1" "computer",
   DemoEvent.tool_use "b" "i2" "computer",
   DemoEvent.tool_result ⟨some "ok-a", none, none, none⟩ "a",
   DemoEvent.tool_result ⟨some "ok-b", none, none, none⟩ "b"]

/-! ### Helper lemmas about `group_with` -/

theorem group_with_nil (m : String → Option ToolResult) :
    group_with m [] = [] := rfl

theorem group_with_cons (m : String → Option ToolResult) (e : DemoEvent)
    (l : List DemoEvent) :
    group_with m (e :: l) = group_unit m e ++ group_with m l := rfl

theorem results_for_nil (id : String) : results_for [] id = [] := rfl

theorem results_for_append (l₁ l₂ : List DemoEvent) (id : String) :
    results_for (l₁ ++ l₂) id = results_for l₁ id ++ results_for l₂ id :=
  List.filterMap_append l₁ l₂ _

/-- Grouping against a dictionary that has no entry for `id` produces no
tool result carrying `id`. -/
theorem results_for_group_with_none (m : String → Option ToolResult)
    (l : List DemoEvent) (id : String) (h : m id = none) :
    results_for (group_with m l) id = [] := by
  induction l with
  | nil => rfl
  | cons e l ih =>
      rw [group_with_cons, results_for_append, ih]
      cases e with
      | tool_use i input name =>
          simp only [group_unit]
          cases hm : m i with
          | none => rfl
          | some r =>
              simp only [results_for, List.filterMap]
              by_cases hid : i = id
              · rw [hid] at hm; rw [hm] at h; exact Option.noConfusion h
              · simp [hid]
      | user_input t => simp [group_unit, results_for]
      | assistant_output t => simp [group_unit, results_for]
      | tool_result r tid => simp [group_unit, results_for]
      | error e => simp [group_unit, results_for]

/-- Grouping against a dictionary mapping `id` to `r` emits one
tool result carrying `id` — with payload `r` — per tool use carrying
`id`. -/
theorem results_for_group_with_some (m : String → Option ToolResult)
    (l : List DemoEvent) (id : String) (r : ToolResult)
    (h : m id = some r) :
    results_for (group_with m l) id =
      List.replicate (tool_use_count l id) r := by
  induction l with
  | nil => rfl
  | cons e l ih =>
      rw [group_with_cons, results_for_append, ih]
      cases e with
      | tool_use i input name =>
          by_cases hid : i = id
          · subst hid
            simp only [group_unit, h]
            simp only [results_for, List.filterMap, if_pos rfl]
            simp only [tool_use_count, List.filter, BEq.refl,
              List.length_cons, List.replicate_succ]
            rfl
          · have hne : (i == id) = false := by
              simp [hid]
            cases hm : m i with
            | none =>
                simp [group_unit, hm, tool_use_count, List.filter, hne,
                  results_for]
            | some r' =>
                simp only [group_unit, hm]
                have : results_for
                    [DemoEvent.tool_use i input name,
                     DemoEvent.tool_result r' i] id = [] := by
                  simp [results_for, List.filterMap, hid]
                rw [this, List.nil_append]
                simp [tool_use_count, List.filter, hne]
      | user_input t => simp [group_unit, results_for, tool_use_count,
          List.filter]
      | assistant_output t => simp [group_unit, results_for,
          tool_use_count, List.filter]
      | tool_result r' tid => simp [group_unit, results_for,
          tool_use_count, List.filter]
      | error e => simp [group_unit, results_for, tool_use_count,
          List.filter]

theorem tool_use_count_pos (events : List DemoEvent) (id input name : String)
    (h : DemoEvent.tool_use id input name ∈ events) :
    0 < tool_use_count events id :=
  List.length_pos_of_mem (List.mem_filter.mpr ⟨h, by simp⟩)

theorem getLast?_of_all_eq {α : Type} (l : List α) (a : α) (hne : l ≠ [])
    (h : ∀ x ∈ l, x = a) : l.getLast? = some a := by
  induction l with
  | nil => exact absurd rfl hne
  | cons x l ih =>
      cases l with
      | nil => rw [h x (List.mem_cons_self _ _)]; rfl
      | cons y l' =>
          rw [List.getLast?_cons_cons]
          exact ih (List.cons_ne_nil _ _) fun z hz => h z (List.mem_cons_of_mem _ hz)

/-- Rebuilding the results dictionary over a grouped slice yields the
original entry for every id that kept a tool use: all tool results
carrying `id` in the grouped slice have the originally mapped payload. -/
theorem tool_results_by_group_with (m : String → Option ToolResult)
    (l : List DemoEvent) (id : String) (r : ToolResult)
    (h : m id = some r) (hc : 0 < tool_use_count l id) :
    tool_results_by_tool_use_id (group_with m l) id = some r := by
  rw [tool_results_by_tool_use_id, results_for_group_with_some m l id r h]
  apply getLast?_of_all_eq
  · simp only [ne_eq, List.replicate_eq_nil_iff]
    omega
  · intro x hx
    exact List.eq_of_mem_replicate hx

theorem flatMap_congr_mem {α β : Type} (l : List α) (f g : α → List β)
    (h : ∀ a ∈ l, f a = g a) : l.flatMap f = l.flatMap g := by
  induction l with
  | nil => rfl
  | cons x l ih =>
      simp only [List.flatMap_cons]
      rw [h x (List.mem_cons_self _ _),
        ih fun a ha => h a (List.mem_cons_of_mem _ ha)]

/-- The second pass always produces a slice in the grouped grammar. -/
theorem isGrouped_group_with (m : String → Option ToolResult)
    (l : List DemoEvent) : IsGrouped m (group_with m l) := by
  induction l with
  | nil => exact IsGrouped.nil
  | cons e l ih =>
      rw [group_with_cons]
      cases e with
      | user_input t => exact IsGrouped.user_input t _ ih
      | assistant_output t => exact IsGrouped.assistant_output t _ ih
      | error e => exact IsGrouped.error_event e _ ih
      | tool_result r tid => exact ih
      | tool_use id input name =>
          simp only [group_unit]
          cases hm : m id with
          | none => exact ih
          | some r => exact IsGrouped.pair id input name r _ hm ih

/-- In a grouped slice, every tool result sits immediately after a tool
use carrying its id, and its payload is the dictionary entry for that
id. -/
theorem isGrouped_result_follows_use (m : String → Option ToolResult)
    (l : List DemoEvent) (hg : IsGrouped m l) :
    ∀ p r tid, l[p]? = some (DemoEvent.tool_result r tid) →
      ∃ input name q, p = q + 1 ∧
        l[q]? = some (DemoEvent.tool_use tid input name) ∧
        m tid = some r := by
  induction hg with
  | nil => intro p r tid h; simp at h
  | user_input t rest _ ih =>
      intro p r tid h
      match p with
      | 0 => rw [List.getElem?_cons_zero] at h; exact absurd h (by simp)
      | p' + 1 =>
          rw [List.getElem?_cons_succ] at h
          obtain ⟨input, name, q, hq, hget, hm⟩ := ih p' r tid h
          exact ⟨input, name, q + 1, by omega,
            by rw [List.getElem?_cons_succ]; exact hget, hm⟩
  | assistant_output t rest _ ih =>
      intro p r tid h
      match p with
      | 0 => rw [List.getElem?_cons_zero] at h; exact absurd h (by simp)
      | p' + 1 =>
          rw [List.getElem?_cons_succ] at h
          obtain ⟨input, name, q, hq, hget, hm⟩ := ih p' r tid h
          exact ⟨input, name, q + 1, by omega,
            by rw [List.getElem?_cons_succ]; exact hget, hm⟩
  | error_event e rest _ ih =>
      intro p r tid h
      match p with
      | 0 => rw [List.getElem?_cons_zero] at h; exact absurd h (by simp)
      | p' + 1 =>
          rw [List.getElem?_cons_succ] at h
          obtain ⟨input, name, q, hq, hget, hm⟩ := ih p' r tid h
          exact ⟨input, name, q + 1, by omega,
            by rw [List.getElem?_cons_succ]; exact hget, hm⟩
  | pair id input name r rest hm _ ih =>
      intro p r' tid h
      match p with
      | 0 => rw [List.getElem?_cons_zero] at h; exact absurd h (by simp)
      | 1 =>
          rw [List.getElem?_cons_succ, List.getElem?_cons_zero] at h
          have h1 : DemoEvent.tool_result r id = DemoEvent.tool_result r' tid :=
            Option.some.inj h
          injection h1 with hr htid
          subst hr; subst htid
          exact ⟨input, name, 0, rfl, by rw [List.getElem?_cons_zero], hm⟩
      | p' + 2 =>
          rw [List.getElem?_cons_succ, List.getElem?_cons_succ] at h
          obtain ⟨input', name', q, hq, hget, hm'⟩ := ih p' r' tid h
          exact ⟨input', name', q + 2, by omega,
            by rw [List.getElem?_cons_succ, List.getElem?_cons_succ]
               exact hget, hm'⟩

/-- A tool use retained by the second pass has a dictionary entry. -/
theorem mem_group_with_tool_use (m : String → Option ToolResult)
    (l : List DemoEvent) (id input name : String)
    (h : DemoEvent.tool_use id input name ∈ group_with m l) :
    ∃ r, m id = some r := by
  rw [group_with, List.mem_flatMap] at h
  obtain ⟨e, _, hu⟩ := h
  cases e with
  | user_input t => simp [group_unit] at hu
  | assistant_output t => simp [group_unit] at hu
  | error e => simp [group_unit] at hu
  | tool_result r tid => simp [group_unit] at hu
  | tool_use i inp nm =>
      simp only [group_unit] at hu
      cases hm : m i with
      | none => rw [hm] at hu; simp at hu
      | some r =>
          rw [hm] at hu
          rcases List.mem_pair.mp hu with h1 | h1
          · injection h1 with hid _ _
            exact ⟨r, hid ▸ hm⟩
          · exact absurd h1 (by simp)

/-! ### Helper lemmas about the image-removal walk -/

theorem prune_sub_blocks_images (n : Int) (bs : List ToolResultSubBlock) :
    sub_images (prune_sub_blocks n bs).2 = (sub_images bs).drop n.toNat := by
  induction bs generalizing n with
  | nil => simp [prune_sub_blocks, sub_images]
  | cons b rest ih =>
      cases b with
      | image d =>
          by_cases h : 0 < n
          · simp only [prune_sub_blocks, if_pos h]
            rw [ih]
            have hn : n.toNat = (n - 1).toNat + 1 := by omega
            have hs : sub_images (ToolResultSubBlock.image d :: rest) =
                d :: sub_images rest := rfl
            rw [hs, hn, List.drop_succ_cons]
          · simp only [prune_sub_blocks, if_neg h]
            have hn : n.toNat = 0 := by omega
            have hs : sub_images
                (ToolResultSubBlock.image d ::
                  (prune_sub_blocks n rest).2) =
                d :: sub_images (prune_sub_blocks n rest).2 := rfl
            rw [hs, ih, hn]
            rfl
      | text t =>
          simp only [prune_sub_blocks]
          have hs1 : sub_images
              (ToolResultSubBlock.text t :: (prune_sub_blocks n rest).2) =
              sub_images (prune_sub_blocks n rest).2 := rfl
          have hs2 : sub_images (ToolResultSubBlock.text t :: rest) =
              sub_images rest := rfl
          rw [hs1, hs2, ih]

theorem prune_sub_blocks_counter (n : Int) (bs : List ToolResultSubBlock) :
    (prune_sub_blocks n bs).1 =
      n - ((min n.toNat (sub_images bs).length : Nat) : Int) := by
  induction bs generalizing n with
  | nil => simp [prune_sub_blocks, sub_images]
  | cons b rest ih =>
      cases b with
      | image d =>
          by_cases h : 0 < n
          · simp only [prune_sub_blocks, if_pos h]
            rw [ih]
            simp only [sub_images, List.filterMap_cons, List.length_cons]
            omega
          · simp only [prune_sub_blocks, if_neg h]
            rw [ih]
            simp only [sub_images, List.filterMap_cons, List.length_cons]
            omega
      | text t =>
          simp only [prune_sub_blocks]
          rw [ih]
          simp only [sub_images, List.filterMap_cons]

theorem prune_sub_blocks_non_image (n : Int) (bs : List ToolResultSubBlock) :
    non_image_sub_blocks (prune_sub_blocks n bs).2 =
      non_image_sub_blocks bs := by
  induction bs generalizing n with
  | nil => simp [prune_sub_blocks]
  | cons b rest ih =>
      cases b with
      | image d =>
          by_cases h : 0 < n
          · simp only [prune_sub_blocks, if_pos h]
            rw [ih]
            simp [non_image_sub_blocks, is_image_sub_block, List.filter_cons]
          · simp only [prune_sub_blocks, if_neg h]
            simp only [non_image_sub_blocks, is_image_sub_block,
              List.filter_cons] at ih ⊢
            simpa using ih n
      | text t =>
          simp only [prune_sub_blocks]
          simp only [non_image_sub_blocks, is_image_sub_block,
            List.filter_cons] at ih ⊢
          simpa using ih n

theorem prune_content_images (n : Int) (cs : List ContentBlock) :
    (prune_content n cs).2.flatMap block_images =
      (cs.flatMap block_images).drop n.toNat := by
  induction cs generalizing n with
  | nil => simp [prune_content]
  | cons b rest ih =>
      cases b with
      | tool_result content tid ie =>
          cases content with
          | inl s =>
              simp only [prune_content, List.flatMap_cons, block_images]
              rw [ih]
              simp
          | inr bs =>
              simp only [prune_content, List.flatMap_cons, block_images]
              rw [prune_sub_blocks_images, ih, prune_sub_blocks_counter,
                List.drop_append_eq_append_drop]
              have hlen : (sub_images bs).length =
                  (sub_images bs).length := rfl
              have : (n - ((min n.toNat (sub_images bs).length : Nat) :
                  Int)).toNat = n.toNat - (sub_images bs).length := by omega
              rw [this]
      | text t =>
          simp only [prune_content, List.flatMap_cons, block_images]
          rw [ih]
          simp
      | tool_use id inp nm =>
          simp only [prune_content, List.flatMap_cons, block_images]
          rw [ih]
          simp

theorem prune_content_counter (n : Int) (cs : List ContentBlock) :
    (prune_content n cs).1 =
      n - ((min n.toNat (cs.flatMap block_images).length : Nat) : Int) := by
  induction cs generalizing n with
  | nil => simp [prune_content]
  | cons b rest ih =>
      cases b with
      | tool_result content tid ie =>
          cases content with
          | inl s =>
              simp only [prune_content, List.flatMap_cons, block_images]
              rw [ih]
              simp
          | inr bs =>
              simp only [prune_content, List.flatMap_cons, block_images]
              rw [ih, prune_sub_blocks_counter, List.length_append]
              omega
      | text t =>
          simp only [prune_content, List.flatMap_cons, block_images]
          rw [ih]
          simp
      | tool_use id inp nm =>
          simp only [prune_content, List.flatMap_cons, block_images]
          rw [ih]
          simp

theorem prune_content_non_image (n : Int) (cs : List ContentBlock) :
    (prune_content n cs).2.map non_image_block = cs.map non_image_block := by
  induction cs generalizing n with
  | nil => simp [prune_content]
  | cons b rest ih =>
      cases b with
      | tool_result content tid ie =>
          cases content with
          | inl s =>
              simp only [prune_content, List.map_cons]
              rw [ih]
          | inr bs =>
              simp only [prune_content, List.map_cons, non_image_block]
              rw [ih, prune_sub_blocks_non_image]
      | text t =>
          simp only [prune_content, List.map_cons]
          rw [ih]
      | tool_use id inp nm =>
          simp only [prune_content, List.map_cons]
          rw [ih]

theorem prune_messages_images (n : Int) (ms : List BetaMessageParam) :
    images_of (prune_messages n ms).2 = (images_of ms).drop n.toNat := by
  induction ms generalizing n with
  | nil => simp [prune_messages, images_of]
  | cons m rest ih =>
      simp only [prune_messages, images_of, List.flatMap_cons]
      rw [prune_content_images]
      simp only [images_of] at ih
      rw [ih, prune_content_counter, List.drop_append_eq_append_drop]
      have : (n - ((min n.toNat (m.content.flatMap block_images).length :
          Nat) : Int)).toNat =
          n.toNat - (m.content.flatMap block_images).length := by omega
      rw [this]

theorem prune_messages_counter (n : Int) (ms : List BetaMessageParam) :
    (prune_messages n ms).1 =
      n - ((min n.toNat (total_images ms) : Nat) : Int) := by
  induction ms generalizing n with
  | nil => simp [prune_messages, total_images, images_of]
  | cons m rest ih =>
      simp only [prune_messages, total_images, images_of,
        List.flatMap_cons] at ih ⊢
      rw [ih, prune_content_counter, List.length_append]
      omega

theorem prune_messages_non_image (n : Int) (ms : List BetaMessageParam) :
    non_image_part (prune_messages n ms).2 = non_image_part ms := by
  induction ms generalizing n with
  | nil => simp [prune_messages]
  | cons m rest ih =>
      simp only [prune_messages, non_image_part, List.map_cons]
      simp only [non_image_part] at ih
      rw [ih, prune_content_non_image]

/-! ## Theorems -/

/-- C3: the grouped slice lies in the grouped grammar — every emitted
`ToolUse` is immediately followed by its matched `ToolResult` and all
`ToolResult` events are dropped from their original positions — and,
when no `ToolResult` carrying `id` occurs anywhere in the slice, the
serialized output contains no tool-call block for `id`: an unresolved
`ToolUse` produces no turn at all. -/
theorem group_pairs_and_suppresses_orphans (events : List DemoEvent) :
    IsGrouped (tool_results_by_tool_use_id events)
      (group_tool_messages events) ∧
    ∀ id input name msg b, results_for events id = [] →
      msg ∈ phone_messages events → b ∈ msg.content →
      b ≠ ContentBlock.tool_use id input name := by
  constructor
  · exact isGrouped_group_with _ events
  · intro id input name msg b hempty hmsg hb heq
    subst heq
    rw [phone_messages, List.mem_filterMap] at hmsg
    obtain ⟨ev, hev, hmap⟩ := hmsg
    cases ev with
    | user_input t =>
        simp only [to_beta_message_param, Option.some.injEq] at hmap
        subst hmap
        simp at hb
    | assistant_output t =>
        simp only [to_beta_message_param, Option.some.injEq] at hmap
        subst hmap
        simp at hb
    | error e => simp [to_beta_message_param] at hmap
    | tool_result r tid =>
        simp only [to_beta_message_param, Option.some.injEq] at hmap
        subst hmap
        simp only [List.mem_singleton] at hb
        rw [_make_api_tool_result] at hb
        cases hr : r.error with
        | some err => rw [hr] at hb; exact ContentBlock.noConfusion hb
        | none => rw [hr] at hb; exact ContentBlock.noConfusion hb
    | tool_use i inp nm =>
        simp only [to_beta_message_param, Option.some.injEq] at hmap
        subst hmap
        simp only [List.mem_singleton] at hb
        injection hb with hi hinp hnm
        subst hi; subst hinp; subst hnm
        obtain ⟨r, hr⟩ := mem_group_with_tool_use _ events id input name hev
        rw [tool_results_by_tool_use_id, hempty] at hr
        exact Option.noConfusion hr

/-- C3 witness: a concrete slice whose only tool use is unresolved. -/
theorem group_pairs_and_suppresses_orphans_witness :
    IsGrouped (tool_results_by_tool_use_id c3_events)
      (group_tool_messages c3_events) ∧
    ContentBlock.text "hi" ≠ ContentBlock.tool_use "a" "x" "bash" :=
  ⟨(group_pairs_and_suppresses_orphans c3_events).1,
   (group_pairs_and_suppresses_orphans c3_events).2 "a" "x" "bash"
     ⟨Role.user, [ContentBlock.text "hi"]⟩ (ContentBlock.text "hi")
     (by decide) (by decide) (by decide)⟩

/-- C9: with duplicate `ToolResult` events for one id (and a single
matching `ToolUse`), the grouped slice carries exactly one tool result
for that id, its payload is the LAST matching result of the slice (the
dictionary is overwritten in slice order), and it sits immediately after
the matching tool use; the earlier duplicates appear nowhere. -/
theorem duplicate_tool_results_last_wins (events : List DemoEvent)
    (id : String) (h1 : tool_use_count events id = 1)
    (h2 : 2 ≤ (results_for events id).length) :
    (∃ r, (results_for events id).getLast? = some r ∧
        results_for (group_tool_messages events) id = [r]) ∧
    ∀ p r', (group_tool_messages events)[p]? =
        some (DemoEvent.tool_result r' id) →
      ∃ input name q, p = q + 1 ∧
        (group_tool_messages events)[q]? =
          some (DemoEvent.tool_use id input name) := by
  constructor
  · cases hl : (results_for events id).getLast? with
    | none =>
        rw [List.getLast?_eq_none_iff] at hl
        rw [hl] at h2
        simp at h2
    | some r =>
        refine ⟨r, rfl, ?_⟩
        have hm : tool_results_by_tool_use_id events id = some r := hl
        rw [group_tool_messages,
          results_for_group_with_some _ events id r hm, h1]
        rfl
  · intro p r' hp
    obtain ⟨input, name, q, hq, hget, _⟩ :=
      isGrouped_result_follows_use _ _
        (isGrouped_group_with (tool_results_by_tool_use_id events) events)
        p r' id hp
    exact ⟨input, name, q, hq, hget⟩

/-- C9 witness: on the concrete duplicated slice, the single emitted
result is the later one. -/
theorem duplicate_tool_results_last_wins_witness :
    (∃ r, (results_for c9_events "t").getLast? = some r ∧
        results_for (group_tool_messages c9_events) "t" = [r]) ∧
    ∀ p r', (group_tool_messages c9_events)[p]? =
        some (DemoEvent.tool_result r' "t") →
      ∃ input name q, p = q + 1 ∧
        (group_tool_messages c9_events)[q]? =
          some (DemoEvent.tool_use "t" input name) :=
  duplicate_tool_results_last_wins c9_events "t" (by decide) (by decide)

/-- C5: serialization is idempotent — `group_tool_messages` applied to
its own output returns an equal event list, so serializing a slice twice
yields the same turn sequence as serializing it once. -/
theorem group_tool_messages_idempotent (events : List DemoEvent) :
    group_tool_messages (group_tool_messages events) =
      group_tool_messages events := by
  set m₁ := tool_results_by_tool_use_id events with hm₁
  show group_with (tool_results_by_tool_use_id (group_with m₁ events))
      (group_with m₁ events) = group_with m₁ events
  set m₂ := tool_results_by_tool_use_id (group_with m₁ events) with hm₂
  rw [group_with, group_with, List.flatMap_assoc]
  apply flatMap_congr_mem
  intro e he
  cases e with
  | user_input t => rfl
  | assistant_output t => rfl
  | error e => rfl
  | tool_result r tid => rfl
  | tool_use id input name =>
      simp only [group_unit]
      cases hmi : m₁ id with
      | none => rfl
      | some r =>
          have hm2i : m₂ id = some r := by
            rw [hm₂]
            exact tool_results_by_group_with m₁ events id r hmi
              (tool_use_count_pos events id input name he)
          simp [group_unit, hm2i, group_with]

/-- Filtering out elements on which `f` is `none` anyway does not change
a `filterMap`. -/
theorem filterMap_filter_of_none {α β : Type} (p : α → Bool)
    (f : α → Option β) (l : List α) (h : ∀ a, p a = false → f a = none) :
    (l.filter p).filterMap f = l.filterMap f := by
  induction l with
  | nil => rfl
  | cons a l ih =>
      cases hp : p a with
      | true =>
          rw [List.filter_cons_of_pos hp, List.filterMap_cons,
            List.filterMap_cons, ih]
      | false =>
          rw [List.filter_cons_of_neg (by simp [hp]), List.filterMap_cons, h a hp, ih]

/-- Filtering out elements on which `f` is `[]` anyway does not change a
`flatMap`. -/
theorem flatMap_filter_of_nil {α β : Type} (p : α → Bool)
    (f : α → List β) (l : List α) (h : ∀ a, p a = false → f a = []) :
    (l.filter p).flatMap f = l.flatMap f := by
  induction l with
  | nil => rfl
  | cons a l ih =>
      cases hp : p a with
      | true =>
          rw [List.filter_cons_of_pos hp, List.flatMap_cons,
            List.flatMap_cons, ih]
      | false =>
          rw [List.filter_cons_of_neg (by simp [hp]), List.flatMap_cons, h a hp, ih,
            List.nil_append]

/-- Removing `error` entries does not change the results dictionary. -/
theorem results_for_filter_error (events : List DemoEvent) (id : String) :
    results_for (events.filter fun ev => !is_error_event ev) id =
      results_for events id := by
  apply filterMap_filter_of_none
  intro a ha
  cases a <;> first
    | rfl
    | exact absurd ha (by simp [is_error_event])

/-- Against any fixed dictionary, the serialized messages of a slice and
of the slice with its `error` entries removed coincide: `error` events
pass the grouping pass unchanged and are then mapped to `None` and
filtered out. -/
theorem filterMap_group_filter_error (m : String → Option ToolResult)
    (l : List DemoEvent) :
    (group_with m (l.filter fun ev => !is_error_event ev)).filterMap
        to_beta_message_param =
      (group_with m l).filterMap to_beta_message_param := by
  have key : ∀ l' : List DemoEvent,
      (group_with m l').filterMap to_beta_message_param =
        l'.flatMap fun e =>
          (group_unit m e).filterMap to_beta_message_param := by
    intro l'
    induction l' with
    | nil => rfl
    | cons e l' ih =>
        rw [group_with_cons, List.filterMap_append, List.flatMap_cons, ih]
  rw [key, key]
  apply flatMap_filter_of_nil
  intro a ha
  cases a <;> first
    | rfl
    | exact absurd ha (by simp [is_error_event])

/-- C7: `Error` events contribute nothing to the serialized model
context: `to_beta_message_param` maps an `error` event to `None`,
`phone_anthropic` keeps only non-`None` messages, and removing all
`error` events from a slice leaves the request messages unchanged. -/
theorem error_events_excluded_from_context (events : List DemoEvent) :
    (∀ e, to_beta_message_param (DemoEvent.error e) = none) ∧
    phone_messages (events.filter fun ev => !is_error_event ev) =
      phone_messages events := by
  constructor
  · intro e; rfl
  · have hmap : tool_results_by_tool_use_id
        (events.filter fun ev => !is_error_event ev) =
          tool_results_by_tool_use_id events := by
      funext id
      rw [tool_results_by_tool_use_id, tool_results_by_tool_use_id,
        results_for_filter_error]
    rw [phone_messages, phone_messages, group_tool_messages,
      group_tool_messages, hmap]
    exact filterMap_group_filter_error _ events

/-- C4: with cap `K` and chunk size 10, when more than `K` images are
present pruning removes exactly `(total - K) - ((total - K) mod 10)`
images — a non-negative multiple of 10, never more than `total - K` —
removing oldest-first in walk order (the surviving images are the last
ones) and preserving every non-image sub-block. -/
theorem image_pruning_chunk_rounding (messages : List BetaMessageParam)
    (k : Nat) (h : k < total_images messages) :
    0 ≤ chunked_removal (total_images messages) k 10 ∧
    chunked_removal (total_images messages) k 10 % 10 = 0 ∧
    chunked_removal (total_images messages) k 10 ≤
      (total_images messages : Int) - k ∧
    (total_images
        (_maybe_filter_to_n_most_recent_images messages (some k) 10) : Int) =
      (total_images messages : Int) -
        chunked_removal (total_images messages) k 10 ∧
    images_of (_maybe_filter_to_n_most_recent_images messages (some k) 10) =
      (images_of messages).drop
        (chunked_removal (total_images messages) k 10).toNat ∧
    non_image_part
        (_maybe_filter_to_n_most_recent_images messages (some k) 10) =
      non_image_part messages := by
  have hT : (k : Int) < (total_images messages : Int) := by
    exact_mod_cast h
  have hout : _maybe_filter_to_n_most_recent_images messages (some k) 10 =
      (prune_messages (chunked_removal (total_images messages) k 10)
        messages).2 := rfl
  have himg := prune_messages_images
    (chunked_removal (total_images messages) k 10) messages
  have hcount : total_images
      (_maybe_filter_to_n_most_recent_images messages (some k) 10) =
      (images_of messages).length -
        (chunked_removal (total_images messages) k 10).toNat := by
    rw [total_images, hout, himg, List.length_drop]
  have hlen : (images_of messages).length = total_images messages := rfl
  rw [hlen] at hcount
  refine ⟨?_, ?_, ?_, ?_, ?_, ?_⟩
  · rw [chunked_removal]; omega
  · rw [chunked_removal]; omega
  · rw [chunked_removal]; omega
  · rw [hcount, chunked_removal] at *; omega
  · rw [hout]; exact himg
  · rw [hout]; exact prune_messages_non_image _ messages

/-- C4 witness: with `total = 23, K = 10, C = 10`, exactly 10 images are
removed and 13 retained. -/
theorem image_pruning_chunk_rounding_witness :
    10 < total_images c4_messages ∧
    total_images
      (_maybe_filter_to_n_most_recent_images c4_messages (some 10) 10) =
        13 ∧
    (0 ≤ chunked_removal (total_images c4_messages) 10 10 ∧
     chunked_removal (total_images c4_messages) 10 10 % 10 = 0 ∧
     chunked_removal (total_images c4_messages) 10 10 ≤
       (total_images c4_messages : Int) - 10 ∧
     (total_images
         (_maybe_filter_to_n_most_recent_images c4_messages (some 10) 10) :
           Int) =
       (total_images c4_messages : Int) -
         chunked_removal (total_images c4_messages) 10 10 ∧
     images_of
         (_maybe_filter_to_n_most_recent_images c4_messages (some 10) 10) =
       (images_of c4_messages).drop
         (chunked_removal (total_images c4_messages) 10 10).toNat ∧
     non_image_part
         (_maybe_filter_to_n_most_recent_images c4_messages (some 10) 10) =
       non_image_part c4_messages) :=
  ⟨by decide, by decide,
   image_pruning_chunk_rounding c4_messages 10 (by decide)⟩

/-- A raised exception in a step's external call produces exactly one
`error` outcome for that step. -/
theorem worker_step_of_failed_call (anthropic : Except String BetaMessage)
    (tool : Except String ToolResult) (ev : DemoEvent) (e : String)
    (h : step_call anthropic tool ev = some (Except.error e)) :
    worker_step anthropic tool ev =
      [WorkerEvent.error (worker_error_message e ev)] := by
  cases ev with
  | user_input t =>
      cases anthropic with
      | ok r => simp [step_call, Except.map] at h
      | error e' =>
          simp only [step_call, Except.map, Option.some.injEq] at h
          injection h with h'
          rw [worker_step, h']
  | tool_result r tid =>
      cases anthropic with
      | ok r' => simp [step_call, Except.map] at h
      | error e' =>
          simp only [step_call, Except.map, Option.some.injEq] at h
          injection h with h'
          rw [worker_step, h']
  | tool_use id inp nm =>
      cases tool with
      | ok tr => simp [step_call, Except.map] at h
      | error e' =>
          simp only [step_call, Except.map, Option.some.injEq] at h
          injection h with h'
          rw [worker_step, h']
  | assistant_output t => simp [step_call] at h
  | error err => simp [step_call] at h

theorem worker_outcomes_append (anthropic : Nat → Except String BetaMessage)
    (tool : Nat → Except String ToolResult) (i : Nat)
    (xs ys : List DemoEvent) :
    worker_outcomes anthropic tool i (xs ++ ys) =
      worker_outcomes anthropic tool i xs ++
        worker_outcomes anthropic tool (i + xs.length) ys := by
  induction xs generalizing i with
  | nil => simp [worker_outcomes]
  | cons x xs ih =>
      show worker_step (anthropic i) (tool i) x ++
          worker_outcomes anthropic tool (i + 1) (xs ++ ys) =
        (worker_step (anthropic i) (tool i) x ++
          worker_outcomes anthropic tool (i + 1) xs) ++
          worker_outcomes anthropic tool (i + (x :: xs).length) ys
      rw [ih (i + 1), ← List.append_assoc]
      have hidx : i + 1 + xs.length = i + (x :: xs).length := by
        simp only [List.length_cons]
        omega
      rw [hidx]

/-- C6: if the external call of the snapshot step at position
`pre.length` raises, the run contributes the normal outcomes of the
preceding steps, exactly one `error` outcome for the failing step, the
normal outcomes of the following steps, and the final `finished` outcome
— the failure neither aborts the run nor suppresses the later steps. -/
theorem failed_step_isolated (events : List DemoEvent) (cursor : Nat)
    (anthropic : Nat → Except String BetaMessage)
    (tool : Nat → Except String ToolResult)
    (appended_during_run : List DemoEvent)
    (pre : List DemoEvent) (ev : DemoEvent) (post : List DemoEvent)
    (e : String)
    (hsplit : events.drop cursor = pre ++ ev :: post)
    (hfail : step_call (anthropic pre.length) (tool pre.length) ev =
      some (Except.error e)) :
    run_worker events cursor anthropic tool appended_during_run =
      worker_outcomes anthropic tool 0 pre ++
        [WorkerEvent.error (worker_error_message e ev)] ++
        worker_outcomes anthropic tool (pre.length + 1) post ++
        [WorkerEvent.finished
          (events ++ appended_during_run).length] := by
  rw [run_worker, hsplit, worker_outcomes_append]
  simp only [Nat.zero_add, worker_outcomes]
  rw [worker_step_of_failed_call _ _ ev e hfail]
  simp [List.append_assoc]

/-- C6 witness: a backend failure on step 2 of a 3-step snapshot leaves
the outcomes of steps 1 and 3 intact, adds one `error` outcome, and the
run still finishes. -/
theorem failed_step_isolated_witness :
    run_worker c6_events 0 c6_anthropic c6_tool [] =
      worker_outcomes c6_anthropic c6_tool 0 [DemoEvent.user_input "one"] ++
        [WorkerEvent.error
          (worker_error_message "boom" (DemoEvent.user_input "two"))] ++
        worker_outcomes c6_anthropic c6_tool
          ([DemoEvent.user_input "one"].length + 1)
          [DemoEvent.user_input "three"] ++
        [WorkerEvent.finished
          (c6_events ++ ([] : List DemoEvent)).length] :=
  failed_step_isolated c6_events 0 c6_anthropic c6_tool []
    [DemoEvent.user_input "one"] (DemoEvent.user_input "two")
    [DemoEvent.user_input "three"] "boom" (by rfl) (by rfl)

theorem ownerStep_preserves_inv (s t : SysState) (hinv : CursorInv s)
    (hst : OwnerStep s t) :
    CursorInv t ∧ s.owner.worker_cursor ≤ t.owner.worker_cursor := by
  obtain ⟨hbound, hrun⟩ := hinv
  cases hst with
  | user_input o g txt =>
      dsimp only [CursorInv, add_user_input] at hbound hrun ⊢
      simp only [List.length_append, List.length_cons, List.length_nil]
      exact ⟨⟨by omega, fun hr => ⟨(hrun hr).1, by have := (hrun hr).2; omega⟩⟩,
        le_refl _⟩
  | start_run o g hfalse =>
      dsimp only [CursorInv] at hbound hrun ⊢
      exact ⟨⟨hbound, fun _ => ⟨hbound, le_refl _⟩⟩, le_refl _⟩
  | drain o g w hr hfin =>
      cases w with
      | anthropic_response resp =>
          dsimp only [CursorInv, process_computer_use_event] at hbound hrun ⊢
          simp only [List.length_append]
          exact ⟨⟨by omega,
            fun hr' => ⟨(hrun hr).1, by have := (hrun hr).2; omega⟩⟩,
            le_refl _⟩
      | tool_result tr tid =>
          dsimp only [CursorInv, process_computer_use_event] at hbound hrun ⊢
          simp only [List.length_append, List.length_cons, List.length_nil]
          exact ⟨⟨by omega,
            fun hr' => ⟨(hrun hr).1, by have := (hrun hr).2; omega⟩⟩,
            le_refl _⟩
      | error e =>
          dsimp only [CursorInv, process_computer_use_event] at hbound hrun ⊢
          simp only [List.length_append, List.length_cons, List.length_nil]
          exact ⟨⟨by omega,
            fun hr' => ⟨(hrun hr).1, by have := (hrun hr).2; omega⟩⟩,
            le_refl _⟩
      | finished L =>
          obtain ⟨hgL, hLlen⟩ := hfin L rfl
          obtain ⟨h1, h2⟩ := hrun hr
          dsimp only [CursorInv, process_computer_use_event] at hbound ⊢
          exact ⟨⟨hLlen, fun hr' => Bool.noConfusion hr'⟩, by omega⟩

/-- C8: in every reachable session state the worker cursor is within the
append-only log (`0 ≤ cursor ≤ length(log)` — the lower bound holding by
type), and no owner step — log append, run scheduling, or outcome
processing, including the `finished` overwrite — ever decreases it. -/
theorem worker_cursor_monotone_and_bounded (s : SysState)
    (hs : SysReachable s) :
    s.owner.worker_cursor ≤ s.owner.demo_events.length ∧
    ∀ t, OwnerStep s t →
      s.owner.worker_cursor ≤ t.owner.worker_cursor := by
  have hinv : CursorInv s := by
    induction hs with
    | refl => exact ⟨Nat.le_refl 0, fun h => Bool.noConfusion h⟩
    | tail hab hbc ih => exact (ownerStep_preserves_inv _ _ ih hbc).1
  exact ⟨hinv.1, fun t ht => (ownerStep_preserves_inv s t hinv ht).2⟩

/-- C8 witness: the initial session state. -/
theorem worker_cursor_monotone_and_bounded_witness :
    (⟨initial_owner_state, 0⟩ :
        SysState).owner.worker_cursor ≤
      (⟨initial_owner_state, 0⟩ :
        SysState).owner.demo_events.length ∧
    ∀ t, OwnerStep ⟨initial_owner_state, 0⟩ t →
      (⟨initial_owner_state, 0⟩ :
        SysState).owner.worker_cursor ≤ t.owner.worker_cursor :=
  worker_cursor_monotone_and_bounded ⟨initial_owner_state, 0⟩
    Relation.ReflTransGen.refl

/-- C10: when `only_n_most_recent_images` is `None`, image pruning
returns with the message list completely unchanged, whatever the chunk
threshold — pruning is entirely disabled rather than applying a default
cap. -/
theorem filter_images_none_is_identity (messages : List BetaMessageParam)
    (min_removal_threshold : Int) :
    _maybe_filter_to_n_most_recent_images messages none
      min_removal_threshold = messages :=
  rfl

/-- C2: the `finished` outcome carries `len(demo_events)` — the length
of the live log at the final read — not `cursor + len(snapshot)`. Run
started at cursor 0 over a 1-event snapshot; one event appended by the
owning thread during the run makes the emitted cursor 2, though the
snapshot end is 1, so the appended event would be silently skipped. -/
theorem run_worker_finished_cursor_reads_live_log :
    run_worker c2_demo_events 0 (fun _ => Except.ok ⟨[]⟩)
        (fun _ => Except.ok ToolResult.empty)
        [DemoEvent.assistant_output "hello"] =
      [WorkerEvent.anthropic_response ⟨[]⟩, WorkerEvent.finished 2] ∧
    (2 : Nat) ≠ 0 + c2_demo_events.length := by
  constructor
  · rfl
  · decide

/-- C1 counterexample: both tool-call blocks of two consecutive
`ToolUse` events do appear in the serialized output, but no single turn
carries the two of them — they end up in two separate one-block
assistant turns, refuting the merge rule's "single assistant turn
carrying N tool-call blocks". -/
theorem consecutive_tool_uses_not_merged :
    (∃ m ∈ phone_messages c1_events,
        ContentBlock.tool_use "a" "i1" "computer" ∈ m.content) ∧
    (∃ m ∈ phone_messages c1_events,
        ContentBlock.tool_use "b" "i2" "computer" ∈ m.content) ∧
    ¬ ∃ m ∈ phone_messages c1_events,
        ContentBlock.tool_use "a" "i1" "computer" ∈ m.content ∧
        ContentBlock.tool_use "b" "i2" "computer" ∈ m.content := by
  decide

/-- C1 (amended): the serializer performs no merging at all — every turn
it emits carries exactly one content block; the backend's pairing
constraint is met by ordering (each emitted tool-call turn is
immediately followed by its tool-result turn), not by block merging. -/
theorem serialized_turns_are_single_block (events : List DemoEvent)
    (m : BetaMessageParam) (h : m ∈ phone_messages events) :
    m.content.length = 1 := by
  rw [phone_messages, List.mem_filterMap] at h
  obtain ⟨ev, _, hev⟩ := h
  cases ev <;> simp only [to_beta_message_param, Option.some.injEq] at hev
  case user_input t => subst hev; rfl
  case assistant_output t => subst hev; rfl
  case tool_use id input name => subst hev; rfl
  case tool_result r tid => subst hev; rfl
  case error e => exact Option.noConfusion hev

/-- C1 (amended) witness: a concrete slice and turn. -/
theorem serialized_turns_are_single_block_witness :
    (⟨Role.user, [ContentBlock.text "hi"]⟩ : BetaMessageParam) ∈
        phone_messages [DemoEvent.user_input "hi"] ∧
    (⟨Role.user, [ContentBlock.text "hi"]⟩ : BetaMessageParam).content.length
        = 1 :=
  ⟨by decide,
   serialized_turns_are_single_block [DemoEvent.user_input "hi"] _
     (by decide)⟩

end VoiceComputerUse
